import Mathlib

/-!
Shallow embedding of the pyidec-modbus core (normalizer, tag map, batch
planner, dispatcher) together with proofs about its behaviour.

The definitions mirror the Python sources:
  * `src/pyidec_modbus/errors.py`    -> `PyError`
  * `src/pyidec_modbus/normalize.py` -> `normalize_tag` and its helpers
  * `src/pyidec_modbus/types.py`     -> `ModbusTable`, `TagDef`
  * `src/pyidec_modbus/tagmap.py`    -> `_parse_entry`, map loading, `lookup`
  * `src/pyidec_modbus/client.py`    -> `_coalesce_ranges`, `_resolve`,
                                        `read_many`, `_write_one`

Machine strings are `String`/`List Char` restricted to the ASCII fragment the
operand grammar actually uses; Python ints are `Int` (offsets) or `Nat`
(counts, register values); Python dicts are association lists with
insertion-order semantics; the pymodbus transport is a record of pure
functions returning `Except`.
-/

namespace PyIdec

/-! ### errors.py -/

/-- Exception classes of `errors.py`: `InvalidTagError (tag, message)`,
`UnknownTagError (tag)`, and `ModbusIOError (message, tag?, table?, offset?)`. -/
inductive PyError where
  | invalidTag (tag : String) (msg : String)
  | unknownTag (tag : String)
  | modbusIOError (msg : String) (tag : Option String) (table : Option String)
      (offset : Option Int)
deriving DecidableEq, Repr

/-- The Python class of an exception value (there are exactly three). -/
inductive ErrClass where
  | invalidTagError
  | unknownTagError
  | modbusIOErrClass
deriving DecidableEq, Repr

/-- Which of the three exception classes a `PyError` value belongs to. -/
def PyError.classOf : PyError → ErrClass
  | .invalidTag _ _ => .invalidTagError
  | .unknownTag _ => .unknownTagError
  | .modbusIOError _ _ _ _ => .modbusIOErrClass

/-! ### normalize.py -/

/-- Whitespace characters removed by Python `str.strip()` (ASCII fragment). -/
def isPyWs (c : Char) : Bool :=
  decide (c.toNat = 32 ∨ c.toNat = 9 ∨ c.toNat = 10 ∨ c.toNat = 13 ∨
    c.toNat = 11 ∨ c.toNat = 12)

/-- Python `str.strip()`: drop leading and trailing whitespace. -/
def pstrip (l : List Char) : List Char :=
  ((l.dropWhile isPyWs).reverse.dropWhile isPyWs).reverse

/-- ASCII decimal digit, the fragment of `\d` the operand grammar uses. -/
def isDig (c : Char) : Bool := decide (48 ≤ c.toNat ∧ c.toNat ≤ 57)

/-- ASCII uppercase letter `A`..`Z`. -/
def isUpperL (c : Char) : Bool := decide (65 ≤ c.toNat ∧ c.toNat ≤ 90)

/-- ASCII lowercase letter `a`..`z`. -/
def isLowerL (c : Char) : Bool := decide (97 ≤ c.toNat ∧ c.toNat ≤ 122)

/-- ASCII letter, what `[A-Z]` with `re.IGNORECASE` matches. -/
def isAsciiLetter (c : Char) : Bool := isUpperL c || isLowerL c

/-- Python `str.upper()` on the ASCII letters the grammar admits. -/
def upChar (c : Char) : Char :=
  if 97 ≤ c.toNat ∧ c.toNat ≤ 122 then Char.ofNat (c.toNat - 32) else c

/-- Numeric value of an ASCII digit character. -/
def digToNat (c : Char) : Nat := c.toNat - 48

/-- Python `int` on a string of ASCII digits. -/
def parseDigits (ds : List Char) : Nat :=
  ds.foldl (fun a c => a * 10 + digToNat c) 0

/-- The ASCII digit character for `d < 10`. -/
def dChar (d : Nat) : Char := Char.ofNat (48 + d)

/-- Python `f"{num:04d}"` for `num ≤ 9999`: four zero-padded digits. -/
def pad4 (n : Nat) : List Char :=
  [dChar (n / 1000), dChar (n / 100 % 10), dChar (n / 10 % 10), dChar (n % 10)]

/-- Embedding of `_OPERAND_PATTERN.match` for the anchored pattern
`([A-Z])(\d{1,4})(\.(C|CV|PV))?` with `re.IGNORECASE`: returns the letter,
the digit group, and the optional raw suffix (without the dot). -/
def matchOperand (s : List Char) : Option (Char × List Char × Option (List Char)) :=
  match s with
  | [] => none
  | c :: rest =>
    if isAsciiLetter c then
      let ds := rest.takeWhile isDig
      let rest2 := rest.drop ds.length
      if ds.length = 0 ∨ 4 < ds.length then none
      else
        match rest2 with
        | [] => some (c, ds, none)
        | c2 :: sfx =>
          if c2 = '.' then
            if sfx.map upChar = ['C'] ∨ sfx.map upChar = ['C', 'V'] ∨
                sfx.map upChar = ['P', 'V'] then
              some (c, ds, some sfx)
            else none
          else none
    else none

/-- Body of `normalize_tag` after `raw.strip()`; `raw` is kept only for the
error payloads. -/
def normalizeCore (raw : String) (s : List Char) : Except PyError (List Char) :=
  if s.isEmpty then .error (.invalidTag raw "Tag cannot be empty")
  else
    match matchOperand s with
    | none => .error (.invalidTag raw "Malformed operand")
    | some (c, ds, sfxGroup) =>
      let letter := upChar c
      if letter ≠ 'T' ∧ letter ≠ 'C' ∧ sfxGroup.isSome then
        .error (.invalidTag raw "Operand does not support suffix")
      else
        let num := parseDigits ds
        if 9999 < num then
          .error (.invalidTag raw "Operand number out of range")
        else
          let padded := pad4 num
          if letter = 'T' ∨ letter = 'C' then
            match sfxGroup with
            | none => .ok (letter :: padded ++ ['.', 'C', 'V'])
            | some sfxRaw =>
              let sfxU := sfxRaw.map upChar
              if sfxU = ['C'] ∨ sfxU = ['C', 'V'] ∨ sfxU = ['P', 'V'] then
                .ok (letter :: padded ++ '.' :: sfxU)
              else .error (.invalidTag raw "Invalid Timer Counter suffix")
          else
            .ok (letter :: padded)

/-- Embedding of `normalize_tag` from `normalize.py`. -/
def normalize_tag (raw : String) : Except PyError String :=
  (normalizeCore raw (pstrip raw.toList)).map (fun l => String.mk l)

/-! ### types.py -/

/-- The four Modbus tables (`ModbusTable` in `types.py`). -/
inductive ModbusTable where
  | coil
  | discrete_input
  | input_register
  | holding_register
deriving DecidableEq, Repr

/-- The `.value` string of a `ModbusTable` member. -/
def ModbusTable.value : ModbusTable → String
  | .coil => "coil"
  | .discrete_input => "discrete_input"
  | .input_register => "input_register"
  | .holding_register => "holding_register"

/-- Normalized tag definition (`TagDef` in `types.py`); `meta` is inert for
the core and omitted here. -/
structure TagDef where
  operand : String
  table : ModbusTable
  offset : Int
  width : Int
deriving DecidableEq, Repr

/-- Constructing a `TagDef` runs `__post_init__`, which raises `ValueError`
unless `offset >= 0` and `width in (1, 16)`. -/
def TagDef.make (operand : String) (table : ModbusTable) (offset : Int)
    (width : Int) : Except String TagDef :=
  if offset < 0 then .error "offset must be >= 0"
  else if width ≠ 1 ∧ width ≠ 16 then .error "width must be 1 or 16"
  else .ok ⟨operand, table, offset, width⟩

/-! ### tagmap.py -/

/-- A JSON map entry with its required fields already extracted
(`raw["operand"]`, `raw["table"]`, `raw["offset"]`, `raw["width"]`). -/
structure EntryRaw where
  operand : String
  table : String
  offset : Int
  width : Int
deriving DecidableEq, Repr

/-- Python `ModbusTable(table_str)`: `ValueError` on an unknown value. -/
def tableFromString (s : String) : Except String ModbusTable :=
  if s = "coil" then .ok .coil
  else if s = "discrete_input" then .ok .discrete_input
  else if s = "input_register" then .ok .input_register
  else if s = "holding_register" then .ok .holding_register
  else .error ("Unknown table " ++ s)

/-- Embedding of `_parse_entry`: table-string validation then `TagDef`
construction (which runs the `__post_init__` checks). -/
def _parse_entry (raw : EntryRaw) : Except String TagDef :=
  match tableFromString raw.table with
  | .error _ => .error ("Unknown table " ++ raw.table ++ " for operand " ++ raw.operand)
  | .ok table => TagDef.make raw.operand table raw.offset raw.width

/-- In-memory tag map `_by_operand`, an insertion-ordered dict. -/
abbrev TagMapM := List (String × TagDef)

/-- The shared per-entry loop of `TagMap.__init__`: parse, fail on a
duplicate operand, otherwise insert. -/
def tagMapLoadGo : List EntryRaw → TagMapM → Except String TagMapM
  | [], acc => .ok acc
  | e :: rest, acc =>
    match _parse_entry e with
    | .error msg => .error msg
    | .ok d =>
      if (acc.map Prod.fst).contains d.operand then
        .error ("Duplicate operand in map: " ++ d.operand)
      else tagMapLoadGo rest (acc ++ [(d.operand, d)])

/-- `TagMap.__init__` on the explicit `map_override` path. -/
def tagMapFromOverride (entries : List EntryRaw) : Except String TagMapM :=
  tagMapLoadGo entries []

/-- `TagMap.__init__` on the packaged-resource path, after JSON decoding has
produced the entry list: a `none` stands for a non-dict element, which the
loop skips with `continue`; dict elements go through the same parse and
duplicate check as the override path. -/
def tagMapFromResource : List (Option EntryRaw) → TagMapM → Except String TagMapM
  | [], acc => .ok acc
  | none :: rest, acc => tagMapFromResource rest acc
  | some e :: rest, acc =>
    match _parse_entry e with
    | .error msg => .error msg
    | .ok d =>
      if (acc.map Prod.fst).contains d.operand then
        .error ("Duplicate operand in map: " ++ d.operand)
      else tagMapFromResource rest (acc ++ [(d.operand, d)])

/-- `TagMap.lookup`: `UnknownTagError` when the operand is absent. -/
def tmLookup (m : TagMapM) (tag : String) : Except PyError TagDef :=
  match m.find? (fun p => p.1 = tag) with
  | none => .error (.unknownTag tag)
  | some p => .ok p.2

/-! ### client.py: values, dicts, transport -/

/-- A value read from the PLC: Python `bool` for bit tables, `int`
(unsigned 16-bit) for register tables. -/
inductive PValue where
  | b (x : Bool)
  | i (x : Nat)
deriving DecidableEq, Repr

/-- Python `bool(value)` on a read value. -/
def PValue.toBool : PValue → Bool
  | .b x => x
  | .i n => n ≠ 0

/-- Python `int(value)` on a read value. -/
def PValue.toInt : PValue → Nat
  | .b x => if x then 1 else 0
  | .i n => n

/-- Dict assignment `d[k] = v` on an insertion-ordered association list:
overwrite in place if the key exists, else append. -/
def dinsert {α β : Type} [DecidableEq α] (l : List (α × β)) (k : α) (v : β) :
    List (α × β) :=
  match l with
  | [] => [(k, v)]
  | (k', v') :: rest =>
    if k' = k then (k, v) :: rest else (k', v') :: dinsert rest k v

/-- Dict lookup `d.get(k)` on an association list. -/
def dlookup {α β : Type} [DecidableEq α] (l : List (α × β)) (k : α) : Option β :=
  match l.find? (fun p => p.1 = k) with
  | none => none
  | some p => some p.2

/-- `defaultdict(list)` access `d[k]`, defaulting to the empty list. -/
def ddGetList {α β : Type} [DecidableEq α] (l : List (α × List β)) (k : α) :
    List β :=
  (dlookup l k).getD []

/-- `defaultdict(list)` append `d[k].append(v)`. -/
def ddAppend {α β : Type} [DecidableEq α] (l : List (α × List β)) (k : α)
    (v : β) : List (α × List β) :=
  dinsert l k (ddGetList l k ++ [v])

/-- The slice of the pymodbus client the core calls: each primitive either
returns the response payload or fails (`isError()` / raised exception). -/
structure Transport where
  read_coils : Int → Nat → Except String (List Bool)
  read_discrete_inputs : Int → Nat → Except String (List Bool)
  read_input_registers : Int → Nat → Except String (List Nat)
  read_holding_registers : Int → Nat → Except String (List Nat)
  write_coil : Int → Bool → Except String Unit
  write_register : Int → Nat → Except String Unit

/-! ### client.py: `_coalesce_ranges` -/

/-- One element of the list `_coalesce_ranges` returns: the tuple
`(start_offset, count, [(offset, tag), ...])`. -/
structure RangeR where
  start : Int
  count : Nat
  members : List (Int × String)
deriving DecidableEq, Repr

/-- Dict access `offset_to_tag[off]` for an offset known to be a key. -/
def dget (d : List (Int × String)) (k : Int) : String :=
  (dlookup d k).getD ""

/-- Python `sorted(offset_to_tag.keys())`. -/
def sortedKeys (d : List (Int × String)) : List Int :=
  List.insertionSort (fun a b => a ≤ b) (d.map Prod.fst)

/-- The `for off in sorted_offsets[1:]` loop of `_coalesce_ranges`, with the
running `start`, `prev`, current `group` and the accumulated `ranges`. -/
def coalesceGo (d : List (Int × String)) (start prev : Int)
    (group : List (Int × String)) (acc : List RangeR) :
    List Int → List RangeR
  | [] => acc ++ [⟨start, group.length, group⟩]
  | off :: rest =>
    if off = prev + 1 then
      coalesceGo d start off (group ++ [(off, dget d off)]) acc rest
    else
      coalesceGo d off off [(off, dget d off)]
        (acc ++ [⟨start, group.length, group⟩]) rest

/-- Embedding of `_coalesce_ranges`: group a dict `offset -> tag` into
contiguous ranges. -/
def _coalesce_ranges (d : List (Int × String)) : List RangeR :=
  match sortedKeys d with
  | [] => []
  | k0 :: rest => coalesceGo d k0 k0 [(k0, dget d k0)] [] rest

/-! ### client.py: `_resolve`, `read_many`, `_write_one` -/

/-- `IDECModbusClient._resolve`: normalize then look the canonical operand up
in the tag map.  The per-client cache is pure memoization and is embedded as
the uncached computation. -/
def _resolve (m : TagMapM) (tag : String) : Except PyError TagDef :=
  match normalize_tag tag with
  | .error e => .error e
  | .ok normalized => tmLookup m normalized

/-- Grouping state of `read_many`: `by_table` maps a table to its dict
`offset -> operand`, in table-first-touch order. -/
abbrev ByTable := List (ModbusTable × List (Int × String))

/-- Alias record of `read_many`: `operand_to_originals`. -/
abbrev Op2Orig := List (String × List String)

/-- `by_table[defn.table][defn.offset] = defn.operand` on the nested
insertion-ordered dict. -/
def btInsert (bt : ByTable) (table : ModbusTable) (offset : Int)
    (operand : String) : ByTable :=
  match bt with
  | [] => [(table, [(offset, operand)])]
  | (t, d) :: rest =>
    if t = table then (t, dinsert d offset operand) :: rest
    else (t, d) :: btInsert rest table offset operand

/-- The resolve loop at the top of `read_many`: resolve every tag, recording
aliases and the per-table offset dict; the first resolution error aborts. -/
def resolveLoop (m : TagMapM) : List String → ByTable → Op2Orig →
    Except PyError (ByTable × Op2Orig)
  | [], bt, oo => .ok (bt, oo)
  | t :: ts, bt, oo =>
    match _resolve m t with
    | .error e => .error e
    | .ok defn =>
      resolveLoop m ts (btInsert bt defn.table defn.offset defn.operand)
        (ddAppend oo defn.operand t)

/-- One physical range read: dispatch on the table, surface `isError()` as
`ModbusIOError(str(rr), tag=group[0][1], table=..., offset=start)`, and
reject empty or short responses. -/
def readRange (tr : Transport) (table : ModbusTable) (start : Int)
    (count : Nat) (firstOperand : String) : Except PyError (List PValue) :=
  match table with
  | .coil =>
    match tr.read_coils start count with
    | .error msg =>
      .error (.modbusIOError msg (some firstOperand) (some table.value) (some start))
    | .ok bits =>
      if bits.isEmpty ∨ bits.length < count then
        .error (.modbusIOError "Short bit response" (some firstOperand)
          (some table.value) (some start))
      else .ok (bits.map PValue.b)
  | .discrete_input =>
    match tr.read_discrete_inputs start count with
    | .error msg =>
      .error (.modbusIOError msg (some firstOperand) (some table.value) (some start))
    | .ok bits =>
      if bits.isEmpty ∨ bits.length < count then
        .error (.modbusIOError "Short bit response" (some firstOperand)
          (some table.value) (some start))
      else .ok (bits.map PValue.b)
  | .input_register =>
    match tr.read_input_registers start count with
    | .error msg =>
      .error (.modbusIOError msg (some firstOperand) (some table.value) (some start))
    | .ok regs =>
      if regs.isEmpty ∨ regs.length < count then
        .error (.modbusIOError "Short register response" (some firstOperand)
          (some table.value) (some start))
      else .ok (regs.map PValue.i)
  | .holding_register =>
    match tr.read_holding_registers start count with
    | .error msg =>
      .error (.modbusIOError msg (some firstOperand) (some table.value) (some start))
    | .ok regs =>
      if regs.isEmpty ∨ regs.length < count then
        .error (.modbusIOError "Short register response" (some firstOperand)
          (some table.value) (some start))
      else .ok (regs.map PValue.i)

/-- The result dict `out`, keyed by the caller's original tag strings. -/
abbrev OutMap := List (String × PValue)

/-- Inner alias loop: `for orig in operand_to_originals[op]: out[orig] = val`. -/
def assignAll (origs : List String) (v : PValue) (out : OutMap) : OutMap :=
  origs.foldl (fun o orig => dinsert o orig v) out

/-- Demultiplexing loop `for i, (_off, op) in enumerate(group)`: response
element `i` (here `vals[k + i]` with `k` the running index, initially 0) goes
to member `i`'s operand and on to every original tag aliasing it. -/
def demuxGroup (oo : Op2Orig) (vals : List PValue) :
    List (Int × String) → Nat → OutMap → OutMap
  | [], _, out => out
  | (_off, op) :: rest, k, out =>
    demuxGroup oo vals rest (k + 1)
      (assignAll (ddGetList oo op) (vals.getD k (.i 0)) out)

/-- First member's operand, `group[0][1]` in the error payloads. -/
def firstOp (r : RangeR) : String :=
  match r.members with
  | [] => ""
  | (_, op) :: _ => op

/-- The `for start, count, group in ranges` loop of `read_many` for one
table, threading the result dict and the number of physical range-read calls
actually issued; an error aborts the whole call. -/
def runRanges (tr : Transport) (oo : Op2Orig) (table : ModbusTable) :
    List RangeR → OutMap → Nat → Except PyError OutMap × Nat
  | [], out, n => (.ok out, n)
  | r :: rs, out, n =>
    match readRange tr table r.start r.count (firstOp r) with
    | .error e => (.error e, n + 1)
    | .ok vals =>
      runRanges tr oo table rs (demuxGroup oo vals r.members 0 out) (n + 1)

/-- The `for table, offset_to_operand in by_table.items()` loop of
`read_many`. -/
def runTables (tr : Transport) (oo : Op2Orig) :
    ByTable → OutMap → Nat → Except PyError OutMap × Nat
  | [], out, n => (.ok out, n)
  | (table, d) :: rest, out, n =>
    match runRanges tr oo table (_coalesce_ranges d) out n with
    | (.error e, n') => (.error e, n')
    | (.ok out', n') => runTables tr oo rest out' n'

/-- Embedding of `IDECModbusClient.read_many`, returning the result dict (or
the first raised error) together with the number of physical range-read
calls issued. -/
def read_many (m : TagMapM) (tr : Transport) (tags : List String) :
    Except PyError OutMap × Nat :=
  if tags.isEmpty then (.ok [], 0)
  else
    match resolveLoop m tags [] [] with
    | .error e => (.error e, 0)
    | .ok (bt, oo) => runTables tr oo bt [] 0

/-- Embedding of `IDECModbusClient._write_one`, returning the outcome and
the number of physical write calls issued: coils and holding registers
dispatch to the transport, any other table raises `ModbusIOError` without a
transport call. -/
def _write_one (tr : Transport) (defn : TagDef) (value : PValue) :
    Except PyError Unit × Nat :=
  match defn.table with
  | .coil =>
    match tr.write_coil defn.offset value.toBool with
    | .error msg =>
      (.error (.modbusIOError msg (some defn.operand) (some defn.table.value)
        (some defn.offset)), 1)
    | .ok _ => (.ok (), 1)
  | .holding_register =>
    match tr.write_register defn.offset value.toInt with
    | .error msg =>
      (.error (.modbusIOError msg (some defn.operand) (some defn.table.value)
        (some defn.offset)), 1)
    | .ok _ => (.ok (), 1)
  | t =>
    (.error (.modbusIOError ("Write not supported for table " ++ t.value)
      (some defn.operand) (some t.value) (some defn.offset)), 0)

/-! ### Concrete fixtures used by the scenario theorems (mirroring the
tag-map layout of `tests/test_dispatch.py`). -/

/-- Tag map with `D0007/D0008/D0010` on the holding-register table and
`M0012/M0013` on the coil table. -/
def tmFix : TagMapM :=
  [("D0007", ⟨"D0007", .holding_register, 7, 16⟩),
   ("D0008", ⟨"D0008", .holding_register, 8, 16⟩),
   ("D0010", ⟨"D0010", .holding_register, 10, 16⟩),
   ("M0012", ⟨"M0012", .coil, 12, 1⟩),
   ("M0013", ⟨"M0013", .coil, 13, 1⟩)]

/-- Transport stub answering the range reads the scenarios issue: holding
registers `(7,2) -> [40,41]`, `(10,1) -> [77]`, coils `(12,1) -> [true]`;
everything else fails. -/
def trFix : Transport where
  read_coils := fun s c =>
    if s = 12 ∧ c = 1 then .ok [true] else .error "unexpected coil read"
  read_discrete_inputs := fun _ _ => .error "unexpected discrete read"
  read_input_registers := fun _ _ => .error "unexpected input read"
  read_holding_registers := fun s c =>
    if s = 7 ∧ c = 2 then .ok [40, 41]
    else if s = 10 ∧ c = 1 then .ok [77]
    else .error "unexpected holding read"
  write_coil := fun _ _ => .error "write failed"
  write_register := fun _ _ => .error "write failed"

/-- The consecutive offsets `s, s + 1, ..., s + n - 1` (specification side,
used to state contiguity of a coalesced range). -/
def contigList (s : Int) : Nat → List Int
  | 0 => []
  | n + 1 => s :: contigList (s + 1) n

/-- All member offsets of a list of ranges, in order. -/
def rangesOffsets (rs : List RangeR) : List Int :=
  (rs.map (fun r => r.members.map Prod.fst)).flatten

/-- The canonical rendering `<LETTER><4 digits>` or `<LETTER><4 digits>.<SFX>`
that `normalize_tag` returns. -/
def renderTag (letter : Char) (num : Nat) (sfx : Option (List Char)) :
    List Char :=
  letter :: pad4 num ++ (match sfx with | none => [] | some s => '.' :: s)

/-- Shape of every string `normalize_tag` can return: an uppercase letter, a
number up to 9999, and a suffix that is present (and one of `C`, `CV`, `PV`)
exactly for the timer/counter letters. -/
def CanonicalShape (y : List Char) : Prop :=
  ∃ letter num sfx, isUpperL letter = true ∧ num ≤ 9999 ∧
    y = renderTag letter num sfx ∧
    ((sfx = none ∧ ¬(letter = 'T' ∨ letter = 'C')) ∨
      (∃ s, sfx = some s ∧ (letter = 'T' ∨ letter = 'C') ∧
        (s = ['C'] ∨ s = ['C', 'V'] ∨ s = ['P', 'V'])))

/-- A well-formed range: its `count` is the member count and its member
offsets are exactly the consecutive run starting at `start`. -/
def rangeWF (r : RangeR) : Prop :=
  r.count = r.members.length ∧ r.members.map Prod.fst = contigList r.start r.count

/-- The strict gap between two adjacent emitted ranges: the next range does
not begin at `previous offset + 1` (which, for sorted distinct offsets,
means it begins strictly later than `start + count`). -/
def rangeGap (a b : RangeR) : Prop := a.start + (a.count : Int) < b.start

/-- The exception class carried by a write outcome, when it failed. -/
def writeErrClass (r : Except PyError Unit) : Option ErrClass :=
  match r with
  | .error e => some e.classOf
  | .ok _ => none

/-! ### Sanity checks: concrete evaluations of the embedded code -/

example : normalize_tag "T2" = .ok "T0002.CV" := by rfl
example : normalize_tag "C2" = .ok "C0002.CV" := by rfl
example : normalize_tag "d7" = .ok "D0007" := by rfl
example : normalize_tag " d7 " = .ok "D0007" := by rfl
example : normalize_tag "D0007" = .ok "D0007" := by rfl
example : normalize_tag "T0003.CV" = .ok "T0003.CV" := by rfl
example : (normalize_tag "M12.PV").isOk = false := by rfl
example : (normalize_tag "D12345").isOk = false := by rfl
example : (normalize_tag "").isOk = false := by rfl
example : normalize_tag "t2.pv" = .ok "T0002.PV" := by rfl

example :
    _coalesce_ranges [(7, "D0007"), (8, "D0008"), (10, "D0010")] =
      [⟨7, 2, [(7, "D0007"), (8, "D0008")]⟩, ⟨10, 1, [(10, "D0010")]⟩] := by
  rfl

example :
    read_many tmFix trFix ["D0007", "D0008", "D0010"] =
      (.ok [("D0007", .i 40), ("D0008", .i 41), ("D0010", .i 77)], 2) := by
  rfl

example :
    read_many tmFix trFix ["D0007", "D0008"] =
      (.ok [("D0007", .i 40), ("D0008", .i 41)], 1) := by
  rfl

example :
    read_many tmFix trFix ["m12", "M0012"] =
      (.ok [("m12", .b true), ("M0012", .b true)], 1) := by
  rfl

example :
    (read_many tmFix trFix ["D0007", "M12.PV", "D0008"]).2 = 0 := by rfl

example :
    _write_one trFix ⟨"D8000", .input_register, 0, 16⟩ (.i 5) =
      (.error (.modbusIOError "Write not supported for table input_register"
        (some "D8000") (some "input_register") (some 0)), 0) := by
  rfl

/-! ### Character-level lemmas -/

theorem char_eq_of_toNat_eq {a b : Char} (h : a.toNat = b.toNat) : a = b :=
  Char.ext (UInt32.ext h)

theorem toNat_ofNat_valid (n : Nat) (h : n < 55296) : (Char.ofNat n).toNat = n := by
  simp [Char.ofNat, Nat.isValidChar, h, Char.ofNatAux, Char.toNat]
  rfl

theorem dChar_toNat (d : Nat) (h : d ≤ 9) : (dChar d).toNat = 48 + d :=
  toNat_ofNat_valid _ (by omega)

theorem isDig_dChar (d : Nat) (h : d ≤ 9) : isDig (dChar d) = true := by
  simp only [isDig, dChar_toNat d h, decide_eq_true_eq]
  omega

theorem digToNat_dChar (d : Nat) (h : d ≤ 9) : digToNat (dChar d) = d := by
  simp [digToNat, dChar_toNat d h]

theorem upChar_toNat (c : Char) :
    (upChar c).toNat =
      if 97 ≤ c.toNat ∧ c.toNat ≤ 122 then c.toNat - 32 else c.toNat := by
  unfold upChar
  split
  · exact toNat_ofNat_valid _ (by omega)
  · rfl

theorem isUpperL_upChar (c : Char) (h : isAsciiLetter c = true) :
    isUpperL (upChar c) = true := by
  simp only [isAsciiLetter, isUpperL, isLowerL, Bool.or_eq_true,
    decide_eq_true_eq] at h ⊢
  rw [upChar_toNat]
  split <;> omega

theorem upChar_of_isUpperL (c : Char) (h : isUpperL c = true) : upChar c = c := by
  simp only [isUpperL, decide_eq_true_eq] at h
  unfold upChar
  rw [if_neg]
  omega

/-! ### Digit-string lemmas -/

theorem pad4_length (n : Nat) : (pad4 n).length = 4 := rfl

theorem pad4_all_isDig (n : Nat) (h : n ≤ 9999) :
    ∀ c ∈ pad4 n, isDig c = true := by
  intro c hc
  simp only [pad4, List.mem_cons, List.mem_singleton, List.not_mem_nil,
    or_false] at hc
  rcases hc with rfl | rfl | rfl | rfl
  · exact isDig_dChar _ (by omega)
  · exact isDig_dChar _ (by omega)
  · exact isDig_dChar _ (by omega)
  · exact isDig_dChar _ (by omega)

theorem parseDigits_pad4 (n : Nat) (h : n ≤ 9999) :
    parseDigits (pad4 n) = n := by
  have h3 : n / 1000 ≤ 9 := by omega
  simp only [parseDigits, pad4, List.foldl_cons, List.foldl_nil]
  rw [digToNat_dChar _ h3, digToNat_dChar _ (by omega),
    digToNat_dChar _ (by omega), digToNat_dChar _ (by omega)]
  omega

theorem parseDigits_lt (ds : List Char) (h : ∀ c ∈ ds, isDig c = true) :
    parseDigits ds < 10 ^ ds.length := by
  suffices H : ∀ ds : List Char, (∀ c ∈ ds, isDig c = true) → ∀ a : Nat,
      List.foldl (fun a c => a * 10 + digToNat c) a ds < (a + 1) * 10 ^ ds.length by
    have := H ds h 0
    simpa [parseDigits] using this
  intro ds
  induction ds with
  | nil => intro _ a; simp
  | cons c rest ih =>
    intro hall a
    have hc : isDig c = true := hall c (List.mem_cons_self _ _)
    have hd : digToNat c ≤ 9 := by
      simp only [isDig, decide_eq_true_eq] at hc
      simp only [digToNat]
      omega
    have := ih (fun x hx => hall x (List.mem_cons_of_mem _ hx)) (a * 10 + digToNat c)
    simp only [List.foldl_cons, List.length_cons]
    calc List.foldl (fun a c => a * 10 + digToNat c) (a * 10 + digToNat c) rest
        < (a * 10 + digToNat c + 1) * 10 ^ rest.length := this
      _ ≤ ((a + 1) * 10) * 10 ^ rest.length := by
          apply Nat.mul_le_mul_right
          omega
      _ = (a + 1) * 10 ^ (rest.length + 1) := by ring

/-! ### Lemmas about `pstrip` and digit runs -/

theorem takeWhile_eq_self_of_all {α : Type} (p : α → Bool) (l : List α)
    (h : ∀ c ∈ l, p c = true) : l.takeWhile p = l := by
  induction l with
  | nil => rfl
  | cons c rest ih =>
    rw [List.takeWhile_cons, if_pos (h c (List.mem_cons_self _ _))]
    rw [ih (fun x hx => h x (List.mem_cons_of_mem _ hx))]

theorem dropWhile_eq_self_of_all {α : Type} (p : α → Bool) (l : List α)
    (h : ∀ c ∈ l, p c = false) : l.dropWhile p = l := by
  cases l with
  | nil => rfl
  | cons c rest =>
    rw [List.dropWhile_cons, if_neg]
    simp [h c (List.mem_cons_self _ _)]

theorem dropWhile_head?_false {α : Type} (p : α → Bool) (l : List α) (c : α)
    (h : (l.dropWhile p).head? = some c) : p c = false := by
  induction l with
  | nil => simp [List.dropWhile] at h
  | cons x rest ih =>
    rw [List.dropWhile_cons] at h
    by_cases hx : p x = true
    · exact ih (by simpa [hx] using h)
    · rw [if_neg hx] at h
      simp only [List.head?_cons, Option.some.injEq] at h
      subst h
      simpa using hx

theorem dropWhile_eq_self_of_head? {α : Type} (p : α → Bool) (l : List α)
    (h : ∀ c, l.head? = some c → p c = false) : l.dropWhile p = l := by
  cases l with
  | nil => rfl
  | cons c rest =>
    rw [List.dropWhile_cons, if_neg]
    simp [h c rfl]

theorem dropWhile_idem {α : Type} (p : α → Bool) (l : List α) :
    (l.dropWhile p).dropWhile p = l.dropWhile p := by
  apply dropWhile_eq_self_of_head?
  intro c hc
  exact dropWhile_head?_false p l c hc

theorem exists_dropWhile_decomp {α : Type} (p : α → Bool) (l : List α) :
    ∃ r, l = r ++ l.dropWhile p := by
  induction l with
  | nil => exact ⟨[], rfl⟩
  | cons c rest ih =>
    rw [List.dropWhile_cons]
    by_cases hc : p c = true
    · obtain ⟨r, hr⟩ := ih
      exact ⟨c :: r, by simp [hc, ← hr]⟩
    · exact ⟨[], by simp [hc]⟩

theorem pstrip_eq_self_of_all (l : List Char)
    (h : ∀ c ∈ l, isPyWs c = false) : pstrip l = l := by
  unfold pstrip
  rw [dropWhile_eq_self_of_all _ _ h]
  rw [dropWhile_eq_self_of_all _ _ (by simpa using h)]
  exact List.reverse_reverse l

theorem pstrip_rstripped (t : List Char)
    (hhead : ∀ c, t.head? = some c → isPyWs c = false) :
    pstrip ((t.reverse.dropWhile isPyWs).reverse) =
      (t.reverse.dropWhile isPyWs).reverse := by
  have hut : ∃ r, t = (t.reverse.dropWhile isPyWs).reverse ++ r := by
    obtain ⟨r, hr⟩ := exists_dropWhile_decomp isPyWs t.reverse
    refine ⟨r.reverse, ?_⟩
    have := congrArg List.reverse hr
    simpa using this
  have hdu : ((t.reverse.dropWhile isPyWs).reverse).dropWhile isPyWs =
      (t.reverse.dropWhile isPyWs).reverse := by
    apply dropWhile_eq_self_of_head?
    intro c hc
    obtain ⟨r, hr⟩ := hut
    cases hu : (t.reverse.dropWhile isPyWs).reverse with
    | nil => rw [hu] at hc; simp at hc
    | cons x xs =>
      rw [hu] at hc
      simp only [List.head?_cons, Option.some.injEq] at hc
      subst hc
      apply hhead
      rw [hr, hu]
      rfl
  unfold pstrip
  rw [hdu, List.reverse_reverse, dropWhile_idem]

theorem pstrip_idem (l : List Char) : pstrip (pstrip l) = pstrip l := by
  have : pstrip l = (((l.dropWhile isPyWs).reverse.dropWhile isPyWs).reverse) := rfl
  rw [this]
  exact pstrip_rstripped _ (fun c hc => dropWhile_head?_false isPyWs l c hc)

/-! ### Canonical form of normalizer output -/

theorem matchOperand_inv (s : List Char) (c : Char) (ds : List Char)
    (g : Option (List Char)) (h : matchOperand s = some (c, ds, g)) :
    isAsciiLetter c = true ∧ ds ≠ [] ∧ ds.length ≤ 4 ∧
      (∀ x ∈ ds, isDig x = true) ∧
      (∀ sfx, g = some sfx →
        (sfx.map upChar = ['C'] ∨ sfx.map upChar = ['C', 'V'] ∨
          sfx.map upChar = ['P', 'V'])) := by
  unfold matchOperand at h
  cases s with
  | nil => exact absurd h (by simp)
  | cons c0 rest =>
    by_cases hl : isAsciiLetter c0 = true
    · simp only [hl, if_true] at h
      by_cases hguard : (rest.takeWhile isDig).length = 0 ∨ 4 < (rest.takeWhile isDig).length
      · rw [if_pos hguard] at h
        exact absurd h (by simp)
      · rw [if_neg hguard] at h
        push_neg at hguard
        obtain ⟨hne, hle⟩ := hguard
        cases hr2 : rest.drop (rest.takeWhile isDig).length with
        | nil =>
          rw [hr2] at h
          simp only [Option.some.injEq, Prod.mk.injEq] at h
          obtain ⟨rfl, rfl, rfl⟩ := h
          refine ⟨hl, ?_, by omega, fun x hx => List.mem_takeWhile_imp hx, by simp⟩
          intro hnil
          rw [hnil] at hne
          simp at hne
        | cons c2 sfx =>
          rw [hr2] at h
          dsimp only at h
          by_cases hdot : c2 = '.'
          · rw [if_pos hdot] at h
            by_cases hset : sfx.map upChar = ['C'] ∨ sfx.map upChar = ['C', 'V'] ∨
                sfx.map upChar = ['P', 'V']
            · rw [if_pos hset] at h
              simp only [Option.some.injEq, Prod.mk.injEq] at h
              obtain ⟨rfl, rfl, rfl⟩ := h
              refine ⟨hl, ?_, by omega, fun x hx => List.mem_takeWhile_imp hx, ?_⟩
              · intro hnil
                rw [hnil] at hne
                simp at hne
              · intro sfx' hs
                cases hs
                exact hset
            · rw [if_neg hset] at h
              exact absurd h (by simp)
          · rw [if_neg hdot] at h
            exact absurd h (by simp)
    · simp only [hl, if_false] at h
      exact absurd h (by simp)

theorem isPyWs_false_of_isDig (c : Char) (h : isDig c = true) :
    isPyWs c = false := by
  simp only [isDig, decide_eq_true_eq] at h
  simp only [isPyWs, decide_eq_false_iff_not]
  omega

theorem isPyWs_false_of_isUpperL (c : Char) (h : isUpperL c = true) :
    isPyWs c = false := by
  simp only [isUpperL, decide_eq_true_eq] at h
  simp only [isPyWs, decide_eq_false_iff_not]
  omega

theorem isDig_false_of_isUpperL (c : Char) (h : isUpperL c = true) :
    isDig c = false := by
  simp only [isUpperL, decide_eq_true_eq] at h
  simp only [isDig, decide_eq_false_iff_not]
  omega

theorem isAsciiLetter_of_isUpperL (c : Char) (h : isUpperL c = true) :
    isAsciiLetter c = true := by
  simp [isAsciiLetter, h]

/-- The optional tail `renderTag` appends after the digits. -/
theorem renderTag_eq (letter : Char) (num : Nat) (sfx : Option (List Char)) :
    renderTag letter num sfx =
      letter :: (pad4 num ++ (match sfx with | none => [] | some s => '.' :: s)) := rfl

theorem matchOperand_render (letter : Char) (num : Nat)
    (sfx : Option (List Char)) (hup : isUpperL letter = true)
    (hnum : num ≤ 9999)
    (hsfx : sfx = none ∨ ∃ s, sfx = some s ∧
      (s = ['C'] ∨ s = ['C', 'V'] ∨ s = ['P', 'V'])) :
    matchOperand (renderTag letter num sfx) = some (letter, pad4 num, sfx) := by
  have hlet := isAsciiLetter_of_isUpperL letter hup
  have hall := pad4_all_isDig num hnum
  rcases hsfx with rfl | ⟨s, rfl, hset⟩
  · show matchOperand (letter :: (pad4 num ++ [])) = some (letter, pad4 num, none)
    unfold matchOperand
    dsimp only
    rw [if_pos hlet, List.append_nil,
      takeWhile_eq_self_of_all isDig (pad4 num) hall, pad4_length,
      if_neg (by omega)]
    rfl
  · rcases hset with rfl | rfl | rfl
    · show matchOperand (letter :: (pad4 num ++ ['.', 'C'])) =
        some (letter, pad4 num, some ['C'])
      unfold matchOperand
      dsimp only
      rw [List.takeWhile_append,
        takeWhile_eq_self_of_all isDig (pad4 num) hall, if_pos rfl,
        show List.takeWhile isDig ['.', 'C'] = [] from rfl, List.append_nil,
        if_pos hlet, pad4_length, if_neg (by omega)]
      rfl
    · show matchOperand (letter :: (pad4 num ++ ['.', 'C', 'V'])) =
        some (letter, pad4 num, some ['C', 'V'])
      unfold matchOperand
      dsimp only
      rw [List.takeWhile_append,
        takeWhile_eq_self_of_all isDig (pad4 num) hall, if_pos rfl,
        show List.takeWhile isDig ['.', 'C', 'V'] = [] from rfl, List.append_nil,
        if_pos hlet, pad4_length, if_neg (by omega)]
      rfl
    · show matchOperand (letter :: (pad4 num ++ ['.', 'P', 'V'])) =
        some (letter, pad4 num, some ['P', 'V'])
      unfold matchOperand
      dsimp only
      rw [List.takeWhile_append,
        takeWhile_eq_self_of_all isDig (pad4 num) hall, if_pos rfl,
        show List.takeWhile isDig ['.', 'P', 'V'] = [] from rfl, List.append_nil,
        if_pos hlet, pad4_length, if_neg (by omega)]
      rfl

theorem normalizeCore_ok_shape (raw : String) (s : List Char) (y : List Char)
    (h : normalizeCore raw s = .ok y) : CanonicalShape y := by
  unfold normalizeCore at h
  by_cases hs : s.isEmpty
  · rw [if_pos hs] at h
    exact absurd h (by simp)
  · rw [if_neg hs] at h
    cases hm : matchOperand s with
    | none =>
      rw [hm] at h
      exact absurd h (by simp)
    | some trip =>
      obtain ⟨c, ds, g⟩ := trip
      rw [hm] at h
      dsimp only at h
      obtain ⟨hl, hne, hlen, hdig, hsfx⟩ := matchOperand_inv s c ds g hm
      by_cases htc : upChar c ≠ 'T' ∧ upChar c ≠ 'C' ∧ g.isSome = true
      · rw [if_pos htc] at h
        exact absurd h (by simp)
      · rw [if_neg htc] at h
        by_cases hnum : 9999 < parseDigits ds
        · rw [if_pos hnum] at h
          exact absurd h (by simp)
        · rw [if_neg hnum] at h
          push_neg at hnum
          by_cases hTC : upChar c = 'T' ∨ upChar c = 'C'
          · rw [if_pos hTC] at h
            cases g with
            | none =>
              dsimp only at h
              simp only [Except.ok.injEq] at h
              refine ⟨upChar c, parseDigits ds, some ['C', 'V'],
                isUpperL_upChar c hl, hnum, ?_, ?_⟩
              · rw [← h]
                rfl
              · exact Or.inr ⟨['C', 'V'], rfl, hTC, Or.inr (Or.inl rfl)⟩
            | some sfxRaw =>
              dsimp only at h
              have hset := hsfx sfxRaw rfl
              rw [if_pos hset] at h
              simp only [Except.ok.injEq] at h
              refine ⟨upChar c, parseDigits ds, some (sfxRaw.map upChar),
                isUpperL_upChar c hl, hnum, ?_, ?_⟩
              · rw [← h]
                rfl
              · exact Or.inr ⟨sfxRaw.map upChar, rfl, hTC, hset⟩
          · rw [if_neg hTC] at h
            simp only [Except.ok.injEq] at h
            have hgnone : g = none := by
              cases g with
              | none => rfl
              | some sfxRaw =>
                exfalso
                apply htc
                push_neg at hTC
                exact ⟨hTC.1, hTC.2, rfl⟩
            subst hgnone
            refine ⟨upChar c, parseDigits ds, none,
              isUpperL_upChar c hl, hnum, ?_, Or.inl ⟨rfl, hTC⟩⟩
            rw [← h]
            show upChar c :: pad4 (parseDigits ds) =
              upChar c :: (pad4 (parseDigits ds) ++ [])
            rw [List.append_nil]

theorem shape_no_ws (y : List Char) (hy : CanonicalShape y) :
    ∀ c ∈ y, isPyWs c = false := by
  obtain ⟨letter, num, sfx, hup, hnum, rfl, hcase⟩ := hy
  intro c hc
  rw [renderTag_eq] at hc
  simp only [List.mem_cons, List.mem_append] at hc
  rcases hc with rfl | hc | hc
  · exact isPyWs_false_of_isUpperL c hup
  · exact isPyWs_false_of_isDig c (pad4_all_isDig num hnum c hc)
  · rcases hcase with ⟨rfl, _⟩ | ⟨s, rfl, _, hset⟩
    · simp at hc
    · rcases hset with rfl | rfl | rfl
      · simp only [List.mem_cons, List.not_mem_nil, or_false] at hc
        rcases hc with rfl | rfl <;> rfl
      · simp only [List.mem_cons, List.not_mem_nil, or_false] at hc
        rcases hc with rfl | rfl | rfl <;> rfl
      · simp only [List.mem_cons, List.not_mem_nil, or_false] at hc
        rcases hc with rfl | rfl | rfl <;> rfl

theorem normalizeCore_render (raw : String) (letter : Char) (num : Nat)
    (sfx : Option (List Char)) (hup : isUpperL letter = true)
    (hnum : num ≤ 9999)
    (hcase : (sfx = none ∧ ¬(letter = 'T' ∨ letter = 'C')) ∨
      (∃ s, sfx = some s ∧ (letter = 'T' ∨ letter = 'C') ∧
        (s = ['C'] ∨ s = ['C', 'V'] ∨ s = ['P', 'V']))) :
    normalizeCore raw (renderTag letter num sfx) = .ok (renderTag letter num sfx) := by
  have hsfx : sfx = none ∨ ∃ s, sfx = some s ∧
      (s = ['C'] ∨ s = ['C', 'V'] ∨ s = ['P', 'V']) := by
    rcases hcase with ⟨h1, _⟩ | ⟨s, h1, _, hset⟩
    · exact Or.inl h1
    · exact Or.inr ⟨s, h1, hset⟩
  have hmatch := matchOperand_render letter num sfx hup hnum hsfx
  unfold normalizeCore
  rw [if_neg (by rw [renderTag_eq]; simp), hmatch]
  dsimp only
  rw [upChar_of_isUpperL letter hup]
  rcases hcase with ⟨rfl, hTC⟩ | ⟨s, rfl, hTC, hset⟩
  · rw [if_neg (by simp), if_neg (by rw [parseDigits_pad4 num hnum]; omega),
      if_neg hTC]
    rw [renderTag_eq, parseDigits_pad4 num hnum]
    dsimp only
    rw [List.append_nil]
  · have hmap : s.map upChar = s := by
      rcases hset with rfl | rfl | rfl <;> rfl
    rw [if_neg (by push_neg; intro h1 h2; exact absurd hTC (by tauto)),
      if_neg (by rw [parseDigits_pad4 num hnum]; omega), if_pos hTC]
    dsimp only
    rw [hmap, if_pos hset, renderTag_eq, parseDigits_pad4 num hnum]
    rfl

theorem normalizeCore_ok_iff (raw1 raw2 : String) (s : List Char)
    (y : List Char) :
    normalizeCore raw1 s = .ok y ↔ normalizeCore raw2 s = .ok y := by
  unfold normalizeCore
  by_cases hs : s.isEmpty
  · rw [if_pos hs, if_pos hs]
    simp
  · rw [if_neg hs, if_neg hs]
    cases hm : matchOperand s with
    | none => simp
    | some trip =>
      obtain ⟨c, ds, g⟩ := trip
      dsimp only
      by_cases htc : upChar c ≠ 'T' ∧ upChar c ≠ 'C' ∧ g.isSome = true
      · rw [if_pos htc, if_pos htc]
        simp
      · rw [if_neg htc, if_neg htc]
        by_cases hnum : 9999 < parseDigits ds
        · rw [if_pos hnum, if_pos hnum]
          simp
        · rw [if_neg hnum, if_neg hnum]
          by_cases hTC : upChar c = 'T' ∨ upChar c = 'C'
          · rw [if_pos hTC, if_pos hTC]
            cases g with
            | none => simp
            | some sr =>
              dsimp only
              by_cases hset : sr.map upChar = ['C'] ∨ sr.map upChar = ['C', 'V'] ∨
                  sr.map upChar = ['P', 'V']
              · rw [if_pos hset, if_pos hset]
              · rw [if_neg hset, if_neg hset]
                simp
          · rw [if_neg hTC, if_neg hTC]

theorem normalizeMap_ok_imp (raw1 raw2 : String) (s : List Char) (v : String)
    (h : (normalizeCore raw1 s).map (fun l => String.mk l) = .ok v) :
    (normalizeCore raw2 s).map (fun l => String.mk l) = .ok v := by
  cases hc : normalizeCore raw1 s with
  | error e =>
    rw [hc] at h
    simp [Except.map] at h
  | ok l =>
    rw [hc] at h
    rw [(normalizeCore_ok_iff raw1 raw2 s l).mp hc]
    exact h

/-- Claim C5.  Normalization is idempotent: whenever `normalize_tag`
succeeds, running it again on its own output succeeds and returns the same
canonical tag. -/
theorem normalize_idempotent (x y : String) (h : normalize_tag x = .ok y) :
    normalize_tag y = .ok y := by
  unfold normalize_tag at h
  cases hc : normalizeCore x (pstrip x.toList) with
  | error e =>
    rw [hc] at h
    simp [Except.map] at h
  | ok l =>
    rw [hc] at h
    simp only [Except.map, Except.ok.injEq] at h
    have hshape := normalizeCore_ok_shape x _ l hc
    have hstrip : pstrip l = l := pstrip_eq_self_of_all l (shape_no_ws l hshape)
    obtain ⟨letter, num, sfx, hup, hnum, hrender, hcase2⟩ := hshape
    have hcore : normalizeCore (String.mk l) l = .ok l := by
      rw [hrender]
      exact normalizeCore_render (String.mk (renderTag letter num sfx))
        letter num sfx hup hnum hcase2
    subst h
    show (normalizeCore (String.mk l) (pstrip l)).map (fun t => String.mk t) =
      .ok (String.mk l)
    rw [hstrip, hcore]
    rfl

/-- Witness for C5 at the concrete input `"t3"`. -/
theorem normalize_idempotent_witness :
    normalize_tag "t3" = .ok "T0003.CV" ∧
      normalize_tag "T0003.CV" = .ok "T0003.CV" :=
  ⟨rfl, normalize_idempotent "t3" "T0003.CV" rfl⟩

/-- Claim C6.  A timer/counter operand written without an explicit suffix
gets the default suffix `.CV`: whenever the stripped input matches the
operand grammar with letter `T` or `C` (after upper-casing) and no suffix
group, the canonical result is the upper-cased letter, the zero-padded
number, and `.CV`; in particular `normalize("T2") = "T0002.CV"` and
`normalize("C2") = "C0002.CV"`. -/
theorem normalize_tc_default_cv :
    (∀ (x : String) (c : Char) (ds : List Char),
        matchOperand (pstrip x.toList) = some (c, ds, none) →
        (upChar c = 'T' ∨ upChar c = 'C') →
        normalize_tag x =
          .ok (String.mk (upChar c :: pad4 (parseDigits ds) ++ ['.', 'C', 'V']))) ∧
      normalize_tag "T2" = .ok "T0002.CV" ∧
      normalize_tag "C2" = .ok "C0002.CV" := by
  refine ⟨?_, rfl, rfl⟩
  intro x c ds hm hTC
  obtain ⟨hl, hne, hlen, hdig, _⟩ := matchOperand_inv _ c ds none hm
  have hnum : parseDigits ds ≤ 9999 := by
    have h1 := parseDigits_lt ds hdig
    have h2 : 10 ^ ds.length ≤ 10 ^ 4 := Nat.pow_le_pow_right (by omega) hlen
    have h3 : (10 : Nat) ^ 4 = 10000 := by norm_num
    omega
  have hsne : ¬((pstrip x.toList).isEmpty = true) := by
    cases hps : pstrip x.toList with
    | nil =>
      rw [hps] at hm
      exact absurd hm (by simp [matchOperand])
    | cons a as => simp [hps]
  unfold normalize_tag normalizeCore
  rw [if_neg hsne, hm]
  dsimp only
  rw [if_neg (by simp), if_neg (by omega), if_pos hTC]
  rfl

/-- Witness for C6 at the concrete input `"T2"`. -/
theorem normalize_tc_default_cv_witness :
    matchOperand (pstrip (String.toList "T2")) = some ('T', ['2'], none) ∧
      normalize_tag "T2" =
        .ok (String.mk (upChar 'T' :: pad4 (parseDigits ['2']) ++ ['.', 'C', 'V'])) :=
  ⟨rfl, normalize_tc_default_cv.1 "T2" 'T' ['2'] rfl (Or.inl rfl)⟩

/-- Claim C10.  `normalize_tag` strips surrounding whitespace before applying
the grammar: a tag is accepted with a given canonical result exactly when its
trimmed form is, and in particular `" d7 "` is accepted and normalizes to
`"D0007"`, the same canonical tag as `"d7"`. -/
theorem normalize_strips_whitespace :
    (∀ (x v : String),
        normalize_tag x = .ok v ↔
          normalize_tag (String.mk (pstrip x.toList)) = .ok v) ∧
      normalize_tag " d7 " = .ok "D0007" ∧
      normalize_tag "d7" = .ok "D0007" := by
  refine ⟨?_, rfl, rfl⟩
  intro x v
  unfold normalize_tag
  rw [show (String.mk (pstrip x.toList)).toList = pstrip x.toList from rfl]
  rw [pstrip_idem]
  exact ⟨normalizeMap_ok_imp x (String.mk (pstrip x.toList)) _ v,
    normalizeMap_ok_imp (String.mk (pstrip x.toList)) x _ v⟩

/-- Witness for C10 at the concrete input `" d7 "`. -/
theorem normalize_strips_whitespace_witness :
    normalize_tag " d7 " = .ok "D0007" ↔
      normalize_tag (String.mk (pstrip (String.toList " d7 "))) = .ok "D0007" :=
  normalize_strips_whitespace.1 " d7 " "D0007"

/-! ### Correctness of `_coalesce_ranges` -/

theorem coalesceGo_nil (d : List (Int × String)) (start prev : Int)
    (group : List (Int × String)) (acc : List RangeR) :
    coalesceGo d start prev group acc [] =
      acc ++ [RangeR.mk start group.length group] := rfl

theorem coalesceGo_cons (d : List (Int × String)) (start prev : Int)
    (group : List (Int × String)) (acc : List RangeR) (off : Int)
    (rest : List Int) :
    coalesceGo d start prev group acc (off :: rest) =
      if off = prev + 1 then
        coalesceGo d start off (group ++ [(off, dget d off)]) acc rest
      else
        coalesceGo d off off [(off, dget d off)]
          (acc ++ [RangeR.mk start group.length group]) rest := rfl

theorem contigList_snoc (n : Nat) : ∀ s : Int,
    contigList s (n + 1) = contigList s n ++ [s + n] := by
  induction n with
  | zero => intro s; simp [contigList]
  | succ m ih =>
    intro s
    show s :: contigList (s + 1) (m + 1) = (s :: contigList (s + 1) m) ++ [s + ((m + 1 : Nat) : Int)]
    rw [ih (s + 1)]
    have hc : s + 1 + (m : Int) = s + ((m + 1 : Nat) : Int) := by push_cast; ring
    rw [hc]
    simp

theorem coalesceGo_acc (d : List (Int × String)) :
    ∀ (rest : List Int) (start prev : Int) (group : List (Int × String))
      (acc : List RangeR),
      coalesceGo d start prev group acc rest =
        acc ++ coalesceGo d start prev group [] rest := by
  intro rest
  induction rest with
  | nil =>
    intro start prev group acc
    rw [coalesceGo_nil, coalesceGo_nil]
    simp
  | cons off rest ih =>
    intro start prev group acc
    rw [coalesceGo_cons, coalesceGo_cons]
    by_cases h : off = prev + 1
    · rw [if_pos h, if_pos h]
      exact ih start off (group ++ [(off, dget d off)]) acc
    · rw [if_neg h, if_neg h]
      rw [ih off off [(off, dget d off)]
          (acc ++ [RangeR.mk start group.length group]),
        ih off off [(off, dget d off)] ([] ++ [RangeR.mk start group.length group])]
      simp

theorem coalesceGo_spec (d : List (Int × String)) :
    ∀ (rest : List Int) (start prev : Int) (group : List (Int × String)),
      group ≠ [] →
      group.map Prod.fst = contigList start group.length →
      prev = start + (group.length : Int) - 1 →
      List.Pairwise (fun a b => a < b) rest →
      (∀ k ∈ rest, prev < k) →
      ∃ r rs, coalesceGo d start prev group [] rest = r :: rs ∧
        r.start = start ∧
        (∀ r' ∈ r :: rs, rangeWF r') ∧
        List.Chain' rangeGap (r :: rs) ∧
        rangesOffsets (r :: rs) = group.map Prod.fst ++ rest := by
  intro rest
  induction rest with
  | nil =>
    intro start prev group hgne hgmap hprev _ _
    rw [coalesceGo_nil]
    refine ⟨RangeR.mk start group.length group, [], by simp, rfl, ?_, ?_, ?_⟩
    · intro r' hr'
      simp only [List.mem_singleton] at hr'
      subst hr'
      exact ⟨rfl, hgmap⟩
    · exact List.chain'_singleton _
    · simp [rangesOffsets]
  | cons off rest ih =>
    intro start prev group hgne hgmap hprev hpair hgt
    rw [List.pairwise_cons] at hpair
    obtain ⟨hofflt, hpair'⟩ := hpair
    have hg1 : 1 ≤ group.length := by
      cases group with
      | nil => exact absurd rfl hgne
      | cons a as => simp
    rw [coalesceGo_cons]
    by_cases h : off = prev + 1
    · rw [if_pos h]
      have hlen : (group ++ [(off, dget d off)]).length = group.length + 1 := by
        simp
      have hoff : off = start + (group.length : Int) := by omega
      obtain ⟨r, rs, heq, hst, hwf, hch, hoffs⟩ :=
        ih start off (group ++ [(off, dget d off)])
          (by simp)
          (by
            rw [hlen, List.map_append, hgmap, contigList_snoc, ← hoff]
            rfl)
          (by rw [hlen]; push_cast; omega)
          hpair'
          (fun k hk => hofflt k hk)
      refine ⟨r, rs, heq, hst, hwf, hch, ?_⟩
      rw [hoffs, List.map_append]
      simp
    · rw [if_neg h]
      rw [coalesceGo_acc]
      obtain ⟨r', rs', heq', hst', hwf', hch', hoffs'⟩ :=
        ih off off [(off, dget d off)]
          (by simp)
          (by simp [contigList])
          (by simp)
          hpair'
          (fun k hk => hofflt k hk)
      rw [heq']
      refine ⟨RangeR.mk start group.length group, r' :: rs', by simp, rfl,
        ?_, ?_, ?_⟩
      · intro x hx
        simp only [List.mem_cons] at hx
        rcases hx with rfl | hx
        · exact ⟨rfl, hgmap⟩
        · exact hwf' x (List.mem_cons.mpr hx)
      · rw [List.chain'_cons]
        refine ⟨?_, hch'⟩
        have hpo : prev < off := hgt off (List.mem_cons_self _ _)
        show RangeR.start (RangeR.mk start group.length group) +
          ((RangeR.mk start group.length group).count : Int) < r'.start
        rw [hst']
        show start + (group.length : Int) < off
        omega
      · show rangesOffsets (RangeR.mk start group.length group :: r' :: rs') =
          group.map Prod.fst ++ off :: rest
        have hsplit : rangesOffsets (RangeR.mk start group.length group :: r' :: rs') =
            group.map Prod.fst ++ rangesOffsets (r' :: rs') := by
          simp [rangesOffsets]
        rw [hsplit, hoffs']
        simp

theorem coalesce_spec (d : List (Int × String))
    (hnd : (d.map Prod.fst).Nodup) :
    (∀ r ∈ _coalesce_ranges d, rangeWF r) ∧
    List.Chain' rangeGap (_coalesce_ranges d) ∧
    rangesOffsets (_coalesce_ranges d) = sortedKeys d := by
  have hsorted : List.Pairwise (fun a b => (a : Int) ≤ b) (sortedKeys d) :=
    List.sorted_insertionSort (fun a b => a ≤ b) (d.map Prod.fst)
  have hnodup : (sortedKeys d).Nodup :=
    ((List.perm_insertionSort (fun a b => a ≤ b) (d.map Prod.fst)).nodup_iff).mpr hnd
  have hlt : List.Pairwise (fun a b => (a : Int) < b) (sortedKeys d) := by
    have hand := List.Pairwise.and hsorted hnodup
    exact hand.imp (fun hab => lt_of_le_of_ne hab.1 hab.2)
  unfold _coalesce_ranges
  cases hk : sortedKeys d with
  | nil =>
    refine ⟨by simp, by simp, ?_⟩
    simp [rangesOffsets, hk]
  | cons k0 rest =>
    dsimp only
    rw [hk] at hlt
    rw [List.pairwise_cons] at hlt
    obtain ⟨r, rs, heq, _, hwf, hch, hoffs⟩ :=
      coalesceGo_spec d rest k0 k0 [(k0, dget d k0)]
        (by simp)
        (by simp [contigList])
        (by simp)
        hlt.2
        hlt.1
    rw [heq]
    exact ⟨hwf, hch, by rw [hoffs]; simp⟩

theorem runRanges_count (tr : Transport) (oo : Op2Orig) (table : ModbusTable) :
    ∀ (rs : List RangeR) (out : OutMap) (n : Nat) (res : OutMap) (m : Nat),
      runRanges tr oo table rs out n = (.ok res, m) → m = n + rs.length := by
  intro rs
  induction rs with
  | nil =>
    intro out n res m h
    simp only [runRanges, Prod.mk.injEq] at h
    obtain ⟨-, h2⟩ := h
    simp only [List.length_nil]
    omega
  | cons r rest ih =>
    intro out n res m h
    simp only [runRanges] at h
    cases hr : readRange tr table r.start r.count (firstOp r) with
    | error e =>
      rw [hr] at h
      simp at h
    | ok vals =>
      rw [hr] at h
      have := ih (demuxGroup oo vals r.members 0 out) (n + 1) res m h
      simp only [List.length_cons]
      omega

/-- Claim C1.  For every table dict with distinct offsets, `_coalesce_ranges`
merges the sorted offsets into contiguous ranges (each range's member offsets
are a consecutive run, every offset lands in exactly one range in sorted
order, and a new range starts exactly where the next offset is not
`previous + 1`, leaving a strict gap between adjacent ranges); the
dispatcher issues exactly one physical range read per range; and on the
holding-register offsets {7, 8, 10} the plan is exactly
`{start=7, count=2}` and `{start=10, count=1}`, with `read_many` issuing 2
physical reads, not 3. -/
theorem coalesce_plan_correct :
    (∀ d : List (Int × String), (d.map Prod.fst).Nodup →
        (∀ r ∈ _coalesce_ranges d, rangeWF r) ∧
        List.Chain' rangeGap (_coalesce_ranges d) ∧
        rangesOffsets (_coalesce_ranges d) = sortedKeys d) ∧
    (∀ (tr : Transport) (oo : Op2Orig) (table : ModbusTable)
        (rs : List RangeR) (out res : OutMap) (n m : Nat),
        runRanges tr oo table rs out n = (.ok res, m) → m = n + rs.length) ∧
    _coalesce_ranges [(7, "D0007"), (8, "D0008"), (10, "D0010")] =
      [⟨7, 2, [(7, "D0007"), (8, "D0008")]⟩, ⟨10, 1, [(10, "D0010")]⟩] ∧
    read_many tmFix trFix ["D0007", "D0008", "D0010"] =
      (.ok [("D0007", .i 40), ("D0008", .i 41), ("D0010", .i 77)], 2) := by
  refine ⟨coalesce_spec, ?_, rfl, rfl⟩
  intro tr oo table rs out res n m h
  exact runRanges_count tr oo table rs out n res m h

/-- Witness for C1: the coalescing facts at the concrete offset dict
{7, 8, 10}, and the call count 2 = 0 + (number of ranges) at the concrete
dispatch run. -/
theorem coalesce_plan_correct_witness :
    rangesOffsets (_coalesce_ranges [(7, "D0007"), (8, "D0008"), (10, "D0010")]) =
      sortedKeys [(7, "D0007"), (8, "D0008"), (10, "D0010")] ∧
    (2 : Nat) = 0 +
      (_coalesce_ranges [(7, "D0007"), (8, "D0008"), (10, "D0010")]).length := by
  constructor
  · exact (coalesce_plan_correct.1
      [(7, "D0007"), (8, "D0008"), (10, "D0010")] (by decide)).2.2
  · exact coalesce_plan_correct.2.1 trFix
      [("D0007", ["D0007"]), ("D0008", ["D0008"]), ("D0010", ["D0010"])]
      .holding_register
      (_coalesce_ranges [(7, "D0007"), (8, "D0008"), (10, "D0010")])
      [] [("D0007", .i 40), ("D0008", .i 41), ("D0010", .i 77)] 0 2 (by rfl)

/-! ### Dict and demultiplexing lemmas -/

theorem dlookup_cons {α β : Type} [DecidableEq α] (a : α) (b : β)
    (rest : List (α × β)) (k : α) :
    dlookup ((a, b) :: rest) k = if a = k then some b else dlookup rest k := by
  by_cases h : a = k
  · simp [dlookup, List.find?, h]
  · simp only [dlookup, List.find?]
    rw [show (decide (a = k)) = false by simp [h], if_neg h]

theorem dlookup_dinsert {α β : Type} [DecidableEq α] (out : List (α × β))
    (k : α) (v : β) (k' : α) :
    dlookup (dinsert out k v) k' = if k' = k then some v else dlookup out k' := by
  induction out with
  | nil =>
    show dlookup [(k, v)] k' = _
    rw [dlookup_cons]
    by_cases h : k' = k
    · simp [h]
    · rw [if_neg (fun hh => h hh.symm), if_neg h]
  | cons p rest ih =>
    obtain ⟨a, b⟩ := p
    show dlookup (if a = k then (k, v) :: rest else (a, b) :: dinsert rest k v) k' = _
    by_cases hak : a = k
    · rw [if_pos hak, dlookup_cons]
      subst hak
      by_cases h : k' = a
      · rw [if_pos (h.symm), if_pos h]
      · rw [if_neg (fun hh => h hh.symm), if_neg h, dlookup_cons,
          if_neg (fun hh => h hh.symm)]
    · rw [if_neg hak, dlookup_cons, ih, dlookup_cons]
      by_cases h : k' = k
      · rw [if_pos h]
        rw [if_neg (by rw [h]; exact hak), if_pos h]
      · rw [if_neg h, if_neg h]

theorem dlookup_assignAll (origs : List String) (v : PValue) (out : OutMap)
    (orig : String) :
    dlookup (assignAll origs v out) orig =
      if orig ∈ origs then some v else dlookup out orig := by
  induction origs generalizing out with
  | nil => simp [assignAll]
  | cons o os ih =>
    show dlookup (assignAll os v (dinsert out o v)) orig = _
    rw [ih (dinsert out o v)]
    by_cases h : orig ∈ os
    · rw [if_pos h, if_pos (List.mem_cons.mpr (Or.inr h))]
    · rw [if_neg h, dlookup_dinsert]
      by_cases ho : orig = o
      · rw [if_pos ho, if_pos (List.mem_cons.mpr (Or.inl ho))]
      · rw [if_neg ho, if_neg (by simp [ho, h])]

theorem demuxGroup_no_touch (oo : Op2Orig) (vals : List PValue)
    (orig : String) :
    ∀ (group : List (Int × String)) (k : Nat) (out : OutMap),
      (∀ (j : Nat) (off' : Int) (op' : String), group[j]? = some (off', op') →
        orig ∉ ddGetList oo op') →
      dlookup (demuxGroup oo vals group k out) orig = dlookup out orig := by
  intro group
  induction group with
  | nil => intro k out _; rfl
  | cons m rest ih =>
    intro k out hnone
    obtain ⟨o0, p0⟩ := m
    show dlookup (demuxGroup oo vals rest (k + 1)
      (assignAll (ddGetList oo p0) (vals.getD k (.i 0)) out)) orig = _
    rw [ih (k + 1) _ (fun j off' op' hj => hnone (j + 1) off' op'
      (by rw [List.getElem?_cons_succ]; exact hj))]
    rw [dlookup_assignAll,
      if_neg (hnone 0 o0 p0 (List.getElem?_cons_zero))]

theorem dlookup_demuxGroup (oo : Op2Orig) (vals : List PValue) :
    ∀ (group : List (Int × String)) (k : Nat) (out : OutMap) (i : Nat)
      (off : Int) (op orig : String),
      group[i]? = some (off, op) →
      orig ∈ ddGetList oo op →
      (∀ (j : Nat) (off' : Int) (op' : String), group[j]? = some (off', op') →
        orig ∈ ddGetList oo op' → j = i) →
      dlookup (demuxGroup oo vals group k out) orig =
        some (vals.getD (k + i) (.i 0)) := by
  intro group
  induction group with
  | nil =>
    intro k out i off op orig hget _ _
    simp at hget
  | cons m rest ih =>
    intro k out i off op orig hget horig huniq
    obtain ⟨o0, p0⟩ := m
    show dlookup (demuxGroup oo vals rest (k + 1)
      (assignAll (ddGetList oo p0) (vals.getD k (.i 0)) out)) orig = _
    cases i with
    | zero =>
      rw [List.getElem?_cons_zero, Option.some.injEq, Prod.mk.injEq] at hget
      obtain ⟨-, rfl⟩ := hget
      rw [demuxGroup_no_touch oo vals orig rest (k + 1) _ ?_]
      · rw [dlookup_assignAll, if_pos horig, Nat.add_zero]
      · intro j off' op' hj hmem
        have := huniq (j + 1) off' op'
          (by rw [List.getElem?_cons_succ]; exact hj) hmem
        omega
    | succ i0 =>
      rw [List.getElem?_cons_succ] at hget
      have hres := ih (k + 1) (assignAll (ddGetList oo p0) (vals.getD k (.i 0)) out)
        i0 off op orig hget horig ?_
      · rw [hres, show k + 1 + i0 = k + (i0 + 1) from by omega]
      · intro j off' op' hj hmem
        have := huniq (j + 1) off' op'
          (by rw [List.getElem?_cons_succ]; exact hj) hmem
        omega

/-- Claim C2.  After a successful range read, response element `i` is
assigned to the range's member `i`'s operand and distributed to every
original tag aliasing it: if `orig` aliases member `i`'s operand and no
other member's, the demultiplexed result maps `orig` to response element
`i`.  Concretely, the coalesced holding-register read returning `[40, 41]`
for offsets {7, 8} yields `result["D0007"] = 40` and
`result["D0008"] = 41`. -/
theorem demux_element_i_to_member_i :
    (∀ (oo : Op2Orig) (vals : List PValue) (group : List (Int × String))
        (out : OutMap) (i : Nat) (off : Int) (op orig : String),
        group[i]? = some (off, op) →
        orig ∈ ddGetList oo op →
        (∀ (j : Nat) (off' : Int) (op' : String), group[j]? = some (off', op') →
          orig ∈ ddGetList oo op' → j = i) →
        dlookup (demuxGroup oo vals group 0 out) orig =
          some (vals.getD i (.i 0))) ∧
    read_many tmFix trFix ["D0007", "D0008"] =
      (.ok [("D0007", .i 40), ("D0008", .i 41)], 1) ∧
    dlookup [("D0007", PValue.i 40), ("D0008", PValue.i 41)] "D0007" =
      some (.i 40) ∧
    dlookup [("D0007", PValue.i 40), ("D0008", PValue.i 41)] "D0008" =
      some (.i 41) := by
  refine ⟨?_, rfl, rfl, rfl⟩
  intro oo vals group out i off op orig hget horig huniq
  have hres := dlookup_demuxGroup oo vals group 0 out i off op orig hget horig huniq
  rwa [Nat.zero_add] at hres

/-- Witness for C2: member 1 of the coalesced {7, 8} group receives response
element 1 (the value 41). -/
theorem demux_element_i_to_member_i_witness :
    dlookup (demuxGroup [("D0007", ["D0007"]), ("D0008", ["D0008"])]
      [PValue.i 40, PValue.i 41] [(7, "D0007"), (8, "D0008")] 0 []) "D0008" =
      some (([PValue.i 40, PValue.i 41]).getD 1 (.i 0)) := by
  apply demux_element_i_to_member_i.1
    [("D0007", ["D0007"]), ("D0008", ["D0008"])]
    [PValue.i 40, PValue.i 41] [(7, "D0007"), (8, "D0008")] [] 1 8 "D0008" "D0008"
  · rfl
  · simp [ddGetList, dlookup]
  · intro j off' op' hj hmem
    match j with
    | 0 =>
      rw [List.getElem?_cons_zero, Option.some.injEq, Prod.mk.injEq] at hj
      obtain ⟨-, rfl⟩ := hj
      simp [ddGetList, dlookup, dlookup_cons] at hmem
    | 1 => rfl
    | j0 + 2 => simp at hj

/-- Claim C3.  Aliased originals cause one physical read: offsets are
deduplicated per table (the dict keys are distinct), each distinct offset
lands in exactly one coalesced range (the plan's member offsets are exactly
the distinct sorted keys, themselves without duplicates), and in the
concrete batch `["m12", "M0012"]` both originals normalize to `M0012`,
exactly one physical bit read is issued, and both result keys carry the
identical value from it. -/
theorem aliasing_single_read :
    (∀ d : List (Int × String), (d.map Prod.fst).Nodup →
        rangesOffsets (_coalesce_ranges d) = sortedKeys d ∧
          (sortedKeys d).Nodup) ∧
    read_many tmFix trFix ["m12", "M0012"] =
      (.ok [("m12", .b true), ("M0012", .b true)], 1) ∧
    dlookup [("m12", PValue.b true), ("M0012", PValue.b true)] "m12" =
      some (.b true) ∧
    dlookup [("m12", PValue.b true), ("M0012", PValue.b true)] "M0012" =
      some (.b true) := by
  refine ⟨?_, rfl, rfl, rfl⟩
  intro d hnd
  exact ⟨(coalesce_spec d hnd).2.2,
    ((List.perm_insertionSort (fun a b => a ≤ b) (d.map Prod.fst)).nodup_iff).mpr hnd⟩

/-- Witness for C3 at the concrete one-entry coil dict. -/
theorem aliasing_single_read_witness :
    rangesOffsets (_coalesce_ranges [(12, "M0012")]) =
      sortedKeys [(12, "M0012")] ∧ (sortedKeys [(12, "M0012")]).Nodup :=
  aliasing_single_read.1 [(12, "M0012")] (by decide)

/-! ### Resolution-error propagation in `read_many` -/

theorem normalizeCore_error_invalid (raw : String) (s : List Char)
    (e : PyError) (h : normalizeCore raw s = .error e) :
    e.classOf = .invalidTagError := by
  unfold normalizeCore at h
  by_cases hs : s.isEmpty
  · rw [if_pos hs] at h
    cases h
    rfl
  · rw [if_neg hs] at h
    cases hm : matchOperand s with
    | none =>
      rw [hm] at h
      cases h
      rfl
    | some trip =>
      obtain ⟨c, ds, g⟩ := trip
      rw [hm] at h
      dsimp only at h
      by_cases htc : upChar c ≠ 'T' ∧ upChar c ≠ 'C' ∧ g.isSome = true
      · rw [if_pos htc] at h
        cases h
        rfl
      · rw [if_neg htc] at h
        by_cases hnum : 9999 < parseDigits ds
        · rw [if_pos hnum] at h
          cases h
          rfl
        · rw [if_neg hnum] at h
          by_cases hTC : upChar c = 'T' ∨ upChar c = 'C'
          · rw [if_pos hTC] at h
            cases g with
            | none => simp at h
            | some sr =>
              dsimp only at h
              by_cases hset : sr.map upChar = ['C'] ∨ sr.map upChar = ['C', 'V'] ∨
                  sr.map upChar = ['P', 'V']
              · rw [if_pos hset] at h
                simp at h
              · rw [if_neg hset] at h
                cases h
                rfl
          · rw [if_neg hTC] at h
            simp at h

theorem normalize_tag_error_class (t : String) (e : PyError)
    (h : normalize_tag t = .error e) : e.classOf = .invalidTagError := by
  unfold normalize_tag at h
  cases hc : normalizeCore t (pstrip t.toList) with
  | error e0 =>
    rw [hc] at h
    simp only [Except.map, Except.error.injEq] at h
    subst h
    exact normalizeCore_error_invalid t _ e0 hc
  | ok l =>
    rw [hc] at h
    simp [Except.map] at h

theorem _resolve_error_kind (m : TagMapM) (t : String) (e : PyError)
    (h : _resolve m t = .error e) :
    e.classOf = .invalidTagError ∨ e.classOf = .unknownTagError := by
  unfold _resolve at h
  cases hn : normalize_tag t with
  | error e0 =>
    rw [hn] at h
    dsimp only at h
    cases h
    exact Or.inl (normalize_tag_error_class t _ hn)
  | ok norm =>
    rw [hn] at h
    dsimp only at h
    unfold tmLookup at h
    cases hf : m.find? (fun p => p.1 = norm) with
    | none =>
      rw [hf] at h
      dsimp only at h
      cases h
      exact Or.inr rfl
    | some p =>
      rw [hf] at h
      dsimp only at h
      simp at h

theorem resolveLoop_cons (m : TagMapM) (t : String) (ts : List String)
    (bt : ByTable) (oo : Op2Orig) :
    resolveLoop m (t :: ts) bt oo =
      match _resolve m t with
      | .error e => .error e
      | .ok defn => resolveLoop m ts
          (btInsert bt defn.table defn.offset defn.operand)
          (ddAppend oo defn.operand t) := rfl

theorem resolveLoop_error (m : TagMapM) :
    ∀ (pre : List String) (t : String) (post : List String) (bt : ByTable)
      (oo : Op2Orig) (e : PyError),
      (∀ p ∈ pre, (_resolve m p).isOk = true) →
      _resolve m t = .error e →
      resolveLoop m (pre ++ t :: post) bt oo = .error e := by
  intro pre
  induction pre with
  | nil =>
    intro t post bt oo e _ he
    rw [List.nil_append, resolveLoop_cons, he]
  | cons p pre ih =>
    intro t post bt oo e hpre he
    cases hp : _resolve m p with
    | error e0 =>
      have := hpre p (List.mem_cons_self _ _)
      rw [hp] at this
      simp [Except.isOk, Except.toBool] at this
    | ok defn =>
      rw [List.cons_append, resolveLoop_cons, hp]
      exact ih t post _ _ e (fun q hq => hpre q (List.mem_cons_of_mem _ hq)) he

/-- Claim C4.  If any tag of a batch fails resolution (the tags before it
resolving fine), `read_many` fails with that resolution error — an
`InvalidTagError` or `UnknownTagError` — and issues zero transport calls;
concretely a batch containing the malformed `"M12.PV"` fails with its
`InvalidTagError` at transport cost 0. -/
theorem resolution_errors_before_transport :
    (∀ (m : TagMapM) (tr : Transport) (pre : List String) (t : String)
        (post : List String) (e : PyError),
        (∀ p ∈ pre, (_resolve m p).isOk = true) →
        _resolve m t = .error e →
        read_many m tr (pre ++ t :: post) = (.error e, 0) ∧
          (e.classOf = .invalidTagError ∨ e.classOf = .unknownTagError)) ∧
    read_many tmFix trFix ["D0007", "M12.PV", "D0008"] =
      (.error (.invalidTag "M12.PV" "Operand does not support suffix"), 0) := by
  refine ⟨?_, rfl⟩
  intro m tr pre t post e hpre he
  refine ⟨?_, _resolve_error_kind m t e he⟩
  unfold read_many
  rw [if_neg (by simp), resolveLoop_error m pre t post [] [] e hpre he]

/-- Witness for C4 at the concrete batch `["D0007", "M12.PV", "D0008"]`. -/
theorem resolution_errors_before_transport_witness :
    read_many tmFix trFix (["D0007"] ++ "M12.PV" :: ["D0008"]) =
      (.error (.invalidTag "M12.PV" "Operand does not support suffix"), 0) ∧
      ((PyError.invalidTag "M12.PV" "Operand does not support suffix").classOf =
          .invalidTagError ∨
        (PyError.invalidTag "M12.PV" "Operand does not support suffix").classOf =
          .unknownTagError) :=
  resolution_errors_before_transport.1 tmFix trFix ["D0007"] "M12.PV" ["D0008"]
    (.invalidTag "M12.PV" "Operand does not support suffix")
    (by
      intro p hp
      rw [List.mem_singleton] at hp
      subst hp
      rfl)
    rfl

/-! ### Write-path and tag-map claims -/

/-- Claim C7 (amended).  Writing a tag on a read-only table (input
registers, discrete inputs) fails before any transport write is issued, but
the error raised is the generic `ModbusIOError` (message
`"Write not supported for table ..."`); the code defines no separate
`UnsupportedOperation` error kind. -/
theorem write_unsupported_no_transport :
    ∀ (tr : Transport) (defn : TagDef) (v : PValue),
      (defn.table = .input_register ∨ defn.table = .discrete_input) →
      _write_one tr defn v =
        (.error (.modbusIOError
          ("Write not supported for table " ++ defn.table.value)
          (some defn.operand) (some defn.table.value) (some defn.offset)), 0) := by
  intro tr defn v h
  obtain ⟨op, tb, off, w⟩ := defn
  rcases h with h | h <;> (cases h; rfl)

/-- Witness for the amended C7 at a concrete input-register tag. -/
theorem write_unsupported_no_transport_witness :
    _write_one trFix ⟨"D8000", .input_register, 0, 16⟩ (.i 5) =
      (.error (.modbusIOError
        ("Write not supported for table " ++ (ModbusTable.input_register).value)
        (some "D8000") (some "input_register") (some 0)), 0) :=
  write_unsupported_no_transport trFix ⟨"D8000", .input_register, 0, 16⟩ (.i 5)
    (Or.inl rfl)

/-- Counterexample to C7 as stated: the error raised for a write to a
read-only table belongs to the very same exception class (`ModbusIOError`)
as a genuine transport write failure — there is no distinct
`UnsupportedOperation` kind.  The unsupported write issues 0 transport
calls; the failing coil write issues 1 and raises the same class. -/
theorem write_unsupported_not_distinct_kind :
    writeErrClass (_write_one trFix ⟨"D8000", .input_register, 0, 16⟩ (.i 5)).1 =
      some .modbusIOErrClass ∧
    (_write_one trFix ⟨"D8000", .input_register, 0, 16⟩ (.i 5)).2 = 0 ∧
    writeErrClass (_write_one trFix ⟨"M0012", .coil, 12, 1⟩ (.b true)).1 =
      some .modbusIOErrClass ∧
    (_write_one trFix ⟨"M0012", .coil, 12, 1⟩ (.b true)).2 = 1 := by
  exact ⟨rfl, rfl, rfl, rfl⟩

theorem tagMapLoadGo_cons (e : EntryRaw) (rest : List EntryRaw) (acc : TagMapM) :
    tagMapLoadGo (e :: rest) acc =
      match _parse_entry e with
      | .error msg => .error msg
      | .ok d =>
        if (acc.map Prod.fst).contains d.operand then
          .error ("Duplicate operand in map: " ++ d.operand)
        else tagMapLoadGo rest (acc ++ [(d.operand, d)]) := rfl

theorem tagMapFromResource_cons_none (rest : List (Option EntryRaw))
    (acc : TagMapM) :
    tagMapFromResource (none :: rest) acc = tagMapFromResource rest acc := rfl

theorem tagMapFromResource_cons_some (e : EntryRaw)
    (rest : List (Option EntryRaw)) (acc : TagMapM) :
    tagMapFromResource (some e :: rest) acc =
      match _parse_entry e with
      | .error msg => .error msg
      | .ok d =>
        if (acc.map Prod.fst).contains d.operand then
          .error ("Duplicate operand in map: " ++ d.operand)
        else tagMapFromResource rest (acc ++ [(d.operand, d)]) := rfl

theorem tagMapFromResource_eq_loadGo :
    ∀ (js : List (Option EntryRaw)) (acc : TagMapM),
      tagMapFromResource js acc = tagMapLoadGo (js.filterMap id) acc := by
  intro js
  induction js with
  | nil => intro acc; rfl
  | cons j rest ih =>
    intro acc
    cases j with
    | none =>
      rw [tagMapFromResource_cons_none, ih acc,
        show (none :: rest).filterMap (fun a => id a) = rest.filterMap (fun a => id a)
          by simp]
    | some e =>
      rw [tagMapFromResource_cons_some,
        show (some e :: rest).filterMap (fun a => id a) =
          e :: rest.filterMap (fun a => id a) by simp,
        tagMapLoadGo_cons]
      cases _parse_entry e with
      | error msg => rfl
      | ok d =>
        dsimp only
        by_cases hc : ((acc.map Prod.fst).contains d.operand : Bool)
        · rw [if_pos hc, if_pos hc]
        · rw [if_neg hc, if_neg hc]
          exact ih (acc ++ [(d.operand, d)])

theorem tagMapLoadGo_error_of_mem :
    ∀ (entries : List EntryRaw) (acc : TagMapM) (e : EntryRaw) (d : TagDef),
      e ∈ entries → _parse_entry e = .ok d →
      d.operand ∈ acc.map Prod.fst →
      ∃ msg, tagMapLoadGo entries acc = .error msg := by
  intro entries
  induction entries with
  | nil =>
    intro acc e d he
    simp at he
  | cons e0 rest ih =>
    intro acc e d he hp hmem
    rw [tagMapLoadGo_cons]
    cases hp0 : _parse_entry e0 with
    | error msg => exact ⟨msg, rfl⟩
    | ok d0 =>
      dsimp only
      by_cases hc : ((acc.map Prod.fst).contains d0.operand : Bool)
      · rw [if_pos hc]
        exact ⟨_, rfl⟩
      · rw [if_neg hc]
        rcases List.mem_cons.mp he with rfl | he'
        · exfalso
          rw [hp] at hp0
          cases hp0
          exact hc (by simpa using hmem)
        · exact ih _ e d he' hp
            (by rw [List.map_append]; exact List.mem_append_left _ hmem)

theorem tagMapLoadGo_error_of_dup :
    ∀ (entries : List EntryRaw) (acc : TagMapM) (i j : Nat) (ei ej : EntryRaw)
      (di dj : TagDef),
      i < j → entries[i]? = some ei → entries[j]? = some ej →
      _parse_entry ei = .ok di → _parse_entry ej = .ok dj →
      di.operand = dj.operand →
      ∃ msg, tagMapLoadGo entries acc = .error msg := by
  intro entries
  induction entries with
  | nil =>
    intro acc i j ei ej di dj hij hi
    simp at hi
  | cons e0 rest ih =>
    intro acc i j ei ej di dj hij hi hj hpi hpj hop
    rw [tagMapLoadGo_cons]
    cases hp0 : _parse_entry e0 with
    | error msg => exact ⟨msg, rfl⟩
    | ok d0 =>
      dsimp only
      by_cases hc : ((acc.map Prod.fst).contains d0.operand : Bool)
      · rw [if_pos hc]
        exact ⟨_, rfl⟩
      · rw [if_neg hc]
        cases i with
        | zero =>
          rw [List.getElem?_cons_zero, Option.some.injEq] at hi
          subst hi
          have hd : d0 = di := by
            rw [hpi] at hp0
            cases hp0
            rfl
          cases j with
          | zero => omega
          | succ j0 =>
            rw [List.getElem?_cons_succ] at hj
            apply tagMapLoadGo_error_of_mem rest _ ej dj
              (List.getElem?_mem hj) hpj
            rw [List.map_append]
            apply List.mem_append_right
            simp [hd, hop]
        | succ i0 =>
          cases j with
          | zero => omega
          | succ j0 =>
            rw [List.getElem?_cons_succ] at hi hj
            exact ih _ i0 j0 ei ej di dj (by omega) hi hj hpi hpj hop

/-- Claim C8.  The resource load path is the override load path run on the
JSON's dict entries (non-dict elements skipped), so the duplicate rule is
identical on both; loading fails whenever two entries (at distinct
positions) parse to the same canonical operand; and both paths reject the
concrete duplicate `D0007` pair with the same error. -/
theorem tagmap_duplicate_rule_both_paths :
    (∀ (js : List (Option EntryRaw)) (acc : TagMapM),
        tagMapFromResource js acc = tagMapLoadGo (js.filterMap id) acc) ∧
    (∀ (entries : List EntryRaw) (i j : Nat) (ei ej : EntryRaw)
        (di dj : TagDef),
        i < j → entries[i]? = some ei → entries[j]? = some ej →
        _parse_entry ei = .ok di → _parse_entry ej = .ok dj →
        di.operand = dj.operand →
        ∃ msg, tagMapFromOverride entries = .error msg) ∧
    tagMapFromOverride
        [⟨"D0007", "holding_register", 7, 16⟩, ⟨"D0007", "coil", 0, 1⟩] =
      .error "Duplicate operand in map: D0007" ∧
    tagMapFromResource
        [some ⟨"D0007", "holding_register", 7, 16⟩, some ⟨"D0007", "coil", 0, 1⟩]
        [] =
      .error "Duplicate operand in map: D0007" := by
  refine ⟨tagMapFromResource_eq_loadGo, ?_, rfl, rfl⟩
  intro entries i j ei ej di dj hij hi hj hpi hpj hop
  exact tagMapLoadGo_error_of_dup entries [] i j ei ej di dj hij hi hj hpi hpj hop

/-- Witness for C8 at the concrete duplicate pair. -/
theorem tagmap_duplicate_rule_both_paths_witness :
    ∃ msg, tagMapFromOverride
        [⟨"D0007", "holding_register", 7, 16⟩, ⟨"D0007", "coil", 0, 1⟩] =
      .error msg :=
  tagmap_duplicate_rule_both_paths.2.1
    [⟨"D0007", "holding_register", 7, 16⟩, ⟨"D0007", "coil", 0, 1⟩]
    0 1 ⟨"D0007", "holding_register", 7, 16⟩ ⟨"D0007", "coil", 0, 1⟩
    ⟨"D0007", .holding_register, 7, 16⟩ ⟨"D0007", .coil, 0, 1⟩
    (by omega) rfl rfl rfl rfl rfl

/-- Claim C9 (amended).  Every `TagDef` accepted by `__post_init__` has
`offset >= 0` and `width` either 1 or 16; the constructor does not tie the
width to the table kind. -/
theorem tagdef_make_invariant :
    ∀ (op : String) (tb : ModbusTable) (off w : Int) (d : TagDef),
      TagDef.make op tb off w = .ok d →
      0 ≤ d.offset ∧ (d.width = 1 ∨ d.width = 16) := by
  intro op tb off w d h
  unfold TagDef.make at h
  by_cases h1 : off < 0
  · rw [if_pos h1] at h
    simp at h
  · rw [if_neg h1] at h
    by_cases h2 : w ≠ 1 ∧ w ≠ 16
    · rw [if_pos h2] at h
      simp at h
    · rw [if_neg h2] at h
      cases h
      constructor
      · show (0 : Int) ≤ off
        omega
      · show w = 1 ∨ w = 16
        by_cases hw : w = 1
        · exact Or.inl hw
        · refine Or.inr ?_
          by_cases hw16 : w = 16
          · exact hw16
          · exact absurd ⟨hw, hw16⟩ h2

/-- Witness for the amended C9 at a concrete accepted definition. -/
theorem tagdef_make_invariant_witness :
    0 ≤ (TagDef.mk "D0007" .holding_register 7 16).offset ∧
      ((TagDef.mk "D0007" .holding_register 7 16).width = 1 ∨
        (TagDef.mk "D0007" .holding_register 7 16).width = 16) :=
  tagdef_make_invariant "D0007" .holding_register 7 16
    ⟨"D0007", .holding_register, 7, 16⟩ rfl

/-- Counterexample to C9 as stated: a `TagDef` on the coil (bit) table with
width 16 is accepted by the constructor, by `_parse_entry`, and into a
`TagMap`, so width is not forced to 1 on bit tables. -/
theorem tagdef_width_not_tied_to_table :
    TagDef.make "M0012" .coil 12 16 = .ok ⟨"M0012", .coil, 12, 16⟩ ∧
    _parse_entry ⟨"M0012", "coil", 12, 16⟩ = .ok ⟨"M0012", .coil, 12, 16⟩ ∧
    tagMapFromOverride [⟨"M0012", "coil", 12, 16⟩] =
      .ok [("M0012", ⟨"M0012", .coil, 12, 16⟩)] :=
  ⟨rfl, rfl, rfl⟩

end PyIdec
